import Mathlib

/-!
Verification development for the room-draftsman floorplan engine.

The definitions below are a shallow embedding of the TypeScript sources:
  * `src/utils/roomDetection.ts`  — planar-graph build, face traversal, room
    reconciliation (`buildGraph`, `traceFace`, `detectRooms`);
  * `src/utils/constraintSolver.ts` — ordered constraint substitution
    (`applyConstraints`, `priorityOf`, `projectOnAngle`);
  * `src/hooks/useFloorplanStore.ts` — store commands (`addWall`,
    `deleteWall`, `trySplitWalls`, `pointOnWallInterior`).

Numeric conventions.  The sources compute with IEEE doubles; the embedding
idealises them as exact numbers: the room-detection and store code is
embedded over `ℚ` (all of its arithmetic is field arithmetic plus two
comparisons of a Euclidean distance against a nonnegative threshold, which
are rendered by the equivalent squared comparisons, `√s < c ↔ s < c²` for
`0 ≤ c`), and the constraint solver, whose outputs genuinely contain square
roots, is embedded over `ℝ`.  The neighbor sort of `buildGraph` compares
`Math.atan2` values only through the sign of their difference; the
comparator `angLt` below realises exactly that ordering (half-plane class,
then cross product) without transcendental functions.  `Math.random`-based
`generateId` is modelled by an explicit stream `gen : ℕ → String` of ids,
consumed in the order the source calls `generateId()`.
-/

set_option allowUnsafeReducibility true
attribute [semireducible] Rat.add Rat.mul Rat.sub Rat.div Rat.neg Rat.inv

namespace FP

/-- 2D point (`Point` of `src/types/floorplan.ts`), over an arbitrary
coordinate type: instantiated at `ℚ` for the detection/store code and at
`ℝ` for the constraint solver. -/
structure Point (α : Type) where
  x : α
  y : α
deriving DecidableEq, Repr

/-- Wall category (`WallType`; the canvas also produces `'virtual'`). -/
inductive WallType where
  | external
  | internal
  | unheated
  | virtual
deriving DecidableEq, Repr

/-- Photo attachment (opaque to the core). -/
structure Photo where
  id : String
  data : String
  date : String
  label : String
deriving DecidableEq, Repr

/-- Constraint tag (`ConstraintType`). -/
inductive ConstraintType where
  | perpendicular
  | parallel
  | horizontal
  | vertical
  | fixedLength
deriving DecidableEq, Repr

/-- A declared wall constraint (`WallConstraint`). -/
structure WallConstraint (α : Type) where
  type : ConstraintType
  refWallId : Option String
  fixedLengthM : Option α
deriving DecidableEq, Repr

/-- A wall (`Wall`).  The source field `end` is called `endP` here because
`end` is a Lean keyword. -/
structure Wall (α : Type) where
  id : String
  start : Point α
  endP : Point α
  height : α
  wallType : Option WallType
  structureType : String
  uValue : Option α
  photos : List Photo
  constraints : List (WallConstraint α)
deriving DecidableEq, Repr

/-- Opening kind (`OpeningType`). -/
inductive OpeningType where
  | window
  | door
deriving DecidableEq, Repr

/-- An opening (`Opening`). -/
structure Opening (α : Type) where
  id : String
  type : OpeningType
  wallId : String
  width : α
  height : α
  sillHeight : α
  uValue : Option α
  position : α
  photos : List Photo
deriving DecidableEq, Repr

/-- A detected room (`Room`). -/
structure Room where
  id : String
  name : String
  wallIds : List String
  ceilingHeight : ℚ
deriving DecidableEq, Repr

/-- Tool mode of the editor (`ToolMode`). -/
inductive ToolMode where
  | select
  | draw
  | pan
deriving DecidableEq, Repr

/-- The store state (`FloorplanState`). -/
structure FloorplanState where
  walls : List (Wall ℚ)
  openings : List (Opening ℚ)
  rooms : List Room
  selectedWallId : Option String
  selectedOpeningId : Option String
  selectedRoomId : Option String
  toolMode : ToolMode
  globalWallHeight : ℚ
  northAngle : ℚ
  gridSize : ℚ
deriving DecidableEq, Repr

/-! ### Stable sorting

`Array.prototype.sort` is stable (ECMAScript requirement); it is modelled
by left-to-right stable insertion: each element is inserted before the
first element strictly greater than it, hence after all earlier elements
that compare equal. -/

/-- Insert `x` before the first element `y` with `lt x y`. -/
def insertStable {α : Type} (lt : α → α → Bool) (x : α) : List α → List α
  | [] => [x]
  | y :: ys => if lt x y then x :: y :: ys else y :: insertStable lt x ys

/-- Stable sort by the strict comparison `lt` (model of JS `sort`). -/
def sortStable {α : Type} (lt : α → α → Bool) (l : List α) : List α :=
  l.foldl (fun acc x => insertStable lt x acc) []

/-! ### Planar graph construction (`roomDetection.ts`, `buildGraph`) -/

/-- Node key: the source keys nodes by the string
`round(x) + "," + round(y)`; the pair of rounded coordinates is an
injective rendering of that string. -/
abbrev Key := ℤ × ℤ

/-- A directed edge `from→to` of the traversal (`usedEdges` entries). -/
abbrev Edge := Key × Key

/-- Adjacency entry (`{key, wallId}`). -/
structure Nbr where
  key : Key
  wallId : String
deriving DecidableEq, Repr

/-- Graph node (`GraphNode`). -/
structure GNode where
  point : Point ℚ
  neighbors : List Nbr
deriving DecidableEq, Repr

/-- The graph: a JS `Map` iterated in insertion order is an
association list with unique keys. -/
abbrev Graph := List (Key × GNode)

/-- Pixel snap threshold for endpoint matching (`EPSILON = 4`). -/
def EPSILON : ℚ := 4

/-- Source `pointsEqual`: componentwise closeness below `EPSILON`. -/
def pointsEqual (a b : Point ℚ) : Bool :=
  decide (|a.x - b.x| < EPSILON ∧ |a.y - b.y| < EPSILON)

/-- JS `Math.round` (round half away from zero is `floor (x + 1/2)` for
the half-up direction JS uses on ties). -/
def jsRound (q : ℚ) : ℤ := ⌊q + 1 / 2⌋

/-- Source `pointKey`: the rounded-coordinate key of a point. -/
def pointKey (p : Point ℚ) : Key := (jsRound p.x, jsRound p.y)

/-- Source `getOrCreateKey`: scan all registered endpoints for one within
`EPSILON`; otherwise register the point under its rounded key. -/
def getOrCreateKey (eps : List (Key × Point ℚ)) (p : Point ℚ) :
    Key × List (Key × Point ℚ) :=
  match eps.find? (fun e => pointsEqual e.2 p) with
  | some e => (e.1, eps)
  | none => (pointKey p, eps ++ [(pointKey p, p)])

/-- Model of `Map.get` on the graph. -/
def graphGet (g : Graph) (k : Key) : Option GNode :=
  (g.find? (fun e => e.1 = k)).map (·.2)

/-- Model of `Map.has` on the graph. -/
def graphHas (g : Graph) (k : Key) : Bool :=
  (g.find? (fun e => e.1 = k)).isSome

/-- Model of `if (!graph.has(k)) graph.set(k, n)`: insert-if-absent (appends,
preserving insertion order). -/
def graphAdd (g : Graph) (k : Key) (n : GNode) : Graph :=
  if graphHas g k then g else g ++ [(k, n)]

/-- Push a neighbor onto the node stored at `k`. -/
def pushNbr (g : Graph) (k : Key) (nb : Nbr) : Graph :=
  g.map (fun e =>
    if e.1 = k then (e.1, { e.2 with neighbors := e.2.neighbors ++ [nb] }) else e)

/-- Add the directed adjacency `k → tk` unless a neighbor with key `tk`
is already present (the duplicate-edge guard of the source). -/
def addNbr (g : Graph) (k tk : Key) (wid : String) : Graph :=
  match graphGet g k with
  | none => g
  | some n => if n.neighbors.any (fun nb => nb.key = tk) then g else pushNbr g k ⟨tk, wid⟩

/-- One iteration of the wall loop in `buildGraph`. -/
def buildGraphStep (st : List (Key × Point ℚ) × Graph) (w : Wall ℚ) :
    List (Key × Point ℚ) × Graph :=
  let r1 := getOrCreateKey st.1 w.start
  let r2 := getOrCreateKey r1.2 w.endP
  if r1.1 = r2.1 then (r2.2, st.2)
  else
    let g1 := graphAdd st.2 r1.1 ⟨w.start, []⟩
    let g2 := graphAdd g1 r2.1 ⟨w.endP, []⟩
    let g3 := addNbr g2 r1.1 r2.1 w.id
    let g4 := addNbr g3 r2.1 r1.1 w.id
    (r2.2, g4)

/-- The unsorted adjacency graph of a wall list. -/
def buildGraphRaw (walls : List (Wall ℚ)) : Graph :=
  (walls.foldl buildGraphStep ([], [])).2

/-- Half-plane classification of a direction vector by its `atan2` value:
`atan2 ∈ (-π,0)` for `y < 0` (class 0), `= 0` for `y = 0, x ≥ 0`
(class 1, including the zero vector, since `atan2(0,0) = 0`),
`∈ (0,π)` for `y > 0` (class 2), `= π` for `y = 0, x < 0` (class 3). -/
def angQuadrant (v : ℚ × ℚ) : ℕ :=
  if v.2 < 0 then 0
  else if v.2 = 0 ∧ 0 ≤ v.1 then 1
  else if 0 < v.2 then 2
  else 3

/-- z-component of the cross product. -/
def crossZ (u v : ℚ × ℚ) : ℚ := u.1 * v.2 - u.2 * v.1

/-- Exact strict "ascending `atan2`" comparison: smaller half-plane class
first; within one open half-plane `atan2 u < atan2 v ↔ 0 < u × v`
(the angle difference lies in `(-π, π)` there, so the sine of the
difference — the sign of the cross product — decides).  This is precisely
the order the source's float comparator `aAngle - bAngle` computes. -/
def angLt (u v : ℚ × ℚ) : Bool :=
  decide (angQuadrant u < angQuadrant v ∨
    (angQuadrant u = angQuadrant v ∧ 0 < crossZ u v))

/-- Direction vector from a node's point to a neighbor's point (the
comparator's `aNode.point - node.point`; the lookup cannot fail on graphs
produced by `buildGraphRaw`, the `(0,0)` default is dead code). -/
def nbrVec (g : Graph) (base : Point ℚ) (nb : Nbr) : ℚ × ℚ :=
  match graphGet g nb.key with
  | some n => (n.point.x - base.x, n.point.y - base.y)
  | none => (0, 0)

/-- Sort every node's neighbor list by ascending angle (stable, like JS
`sort`; the comparator reads node points, which the sorting never
mutates, so the pre-sort graph is the correct lookup source). -/
def sortGraph (g : Graph) : Graph :=
  g.map (fun e =>
    (e.1, { e.2 with
      neighbors := sortStable
        (fun a b => angLt (nbrVec g e.2.point a) (nbrVec g e.2.point b))
        e.2.neighbors }))

/-- Source `buildGraph`: raw adjacency plus angular sort. -/
def buildGraph (walls : List (Wall ℚ)) : Graph :=
  sortGraph (buildGraphRaw walls)

/-! ### Face traversal (`traceFace`) -/

/-- Hard step bound of a face trace (`maxSteps = 50`). -/
def maxSteps : ℕ := 50

/-- The loop body of `traceFace`, fueled by the remaining step count.
State: accumulated node path, the edge `(prev, cur)` about to be
traversed, and the shared used-directed-edge set (whose additions persist
even when the trace aborts, exactly as in the source). -/
def traceGo (g : Graph) (startKey : Key) :
    ℕ → List Key → Key → Key → List Edge → Option (List Key) × List Edge
  | 0, _, _, _, used => (none, used)
  | fuel + 1, path, prev, cur, used =>
    if (prev, cur) ∈ used then (none, used)
    else
      let used1 := (prev, cur) :: used
      if cur = startKey then (some path, used1)
      else
        match graphGet g cur with
        | none => (none, used1)
        | some node =>
          if node.neighbors.length < 2 then (none, used1)
          else
            match node.neighbors.findIdx? (fun nb => nb.key = prev) with
            | none => (none, used1)
            | some ri =>
              let ni := (ri + node.neighbors.length - 1) % node.neighbors.length
              let nb := node.neighbors.getD ni ⟨(0, 0), ""⟩
              traceGo g startKey fuel (path ++ [cur]) cur nb.key used1

/-- Source `traceFace`: walk from `startKey` along its neighbor `secondKey`,
always turning to the neighbor preceding the arrival edge in sorted
order, until the start is reached again; returns the face (node path)
and the updated used-edge set. -/
def traceFace (g : Graph) (startKey secondKey : Key) (used : List Edge) :
    Option (List Key) × List Edge :=
  traceGo g startKey maxSteps [startKey] startKey secondKey used

/-- The per-node part of the trace loop of `detectRooms`: fire a trace
from every not-yet-used directed edge out of `k`, keeping faces of at
least 3 nodes. -/
def collectFromNode (g : Graph) (k : Key) (nbrs : List Nbr)
    (acc : List (List Key) × List Edge) : List (List Key) × List Edge :=
  nbrs.foldl (fun acc nb =>
    if (k, nb.key) ∈ acc.2 then acc
    else
      let r := traceFace g k nb.key acc.2
      match r.1 with
      | some c => if 3 ≤ c.length then (acc.1 ++ [c], r.2) else (acc.1, r.2)
      | none => (acc.1, r.2)) acc

/-- All candidate cycles, in trace order. -/
def collectCycles (g : Graph) : List (List Key) :=
  (g.foldl (fun acc e => collectFromNode g e.1 e.2.neighbors acc) ([], [])).1

/-! ### Areas and the outer face (`signedPolygonArea`, outer-face fold) -/

/-- Shoelace accumulation: consecutive terms `xᵢyⱼ - xⱼyᵢ`, the last
vertex paired with the first (`f`). -/
def shoelace (f : Point ℚ) : List (Point ℚ) → ℚ
  | [] => 0
  | [p] => p.x * f.y - f.x * p.y
  | p :: q :: rest => (p.x * q.y - q.x * p.y) + shoelace f (q :: rest)

/-- Source `signedPolygonArea`: half the shoelace sum. -/
def signedPolygonArea (pts : List (Point ℚ)) : ℚ :=
  match pts with
  | [] => 0
  | f :: _ => shoelace f pts / 2

/-- Points of a cycle (`cycle.map(k => graph.get(k)!.point)`; the lookup
default is dead code on cycles produced by `collectCycles`). -/
def cyclePoints (g : Graph) (cycle : List Key) : List (Point ℚ) :=
  cycle.map (fun k => ((graphGet g k).getD ⟨⟨0, 0⟩, []⟩).point)

/-- Absolute polygon area of a cycle. -/
def cycleArea (g : Graph) (cycle : List Key) : ℚ :=
  |signedPolygonArea (cyclePoints g cycle)|

/-- The `forEach` of the source that finds the outer face: running
maximum (seeded with 0) and its first index (seeded with 0), updated on
strict increase. -/
def outerFold : List ℚ → ℚ → ℕ → ℕ → ℕ
  | [], _, _, best => best
  | a :: rest, m, i, best =>
    if a > m then outerFold rest a (i + 1) i else outerFold rest m (i + 1) best

/-- Index of the cycle excluded as the outer face. -/
def outerIdxOf (areas : List ℚ) : ℕ := outerFold areas 0 0 0

/-- Removal of the entry at index `k`
(`cycleData.filter((_, i) => i !== outerIdx)`). -/
def dropIdx {α : Type} : List α → ℕ → List α
  | [], _ => []
  | _ :: rest, 0 => rest
  | a :: rest, k + 1 => a :: dropIdx rest k

/-! ### Wall ids and room reconciliation -/

/-- Consecutive pairs of a cycle, wrapping to the first element
(`cycle[i], cycle[(i+1) % n]`). -/
def consecPairsWrap (l : List Key) : List (Key × Key) :=
  match l with
  | [] => []
  | f :: _ => l.zip (l.drop 1 ++ [f])

/-- Wall ids traversed by a cycle, in order, duplicates collapsed. -/
def cycleWallIds (g : Graph) (cycle : List Key) : List String :=
  (consecPairsWrap cycle).foldl (fun acc e =>
    match graphGet g e.1 with
    | none => acc
    | some node =>
      match node.neighbors.find? (fun nb => nb.key = e.2) with
      | some nb => if nb.wallId ∈ acc then acc else acc ++ [nb.wallId]
      | none => acc) []

/-- Lexicographic character-list comparison (codepoint order). -/
def strLtData : List Char → List Char → Bool
  | [], [] => false
  | [], _ :: _ => true
  | _ :: _, [] => false
  | a :: as, b :: bs =>
    if a.toNat < b.toNat then true
    else if b.toNat < a.toNat then false
    else strLtData as bs

/-- Strict string comparison used by JS `Array.sort()` on the wall-id
lists (UTF-16 code-unit order, which agrees with codepoint order on the
ids this program generates). -/
def strLt (a b : String) : Bool := strLtData a.data b.data

/-- Default room name: `Helyiség ${idx + 1}`. -/
def defaultName (idx : ℕ) : String := "Helyiség " ++ toString (idx + 1)

/-- Default ceiling height (2.8 m). -/
def defaultCeiling : ℚ := 14 / 5

/-- Whether an interior cycle datum survives the degeneracy filter
(`areaM2 < 0.01` is discarded). -/
def passes (gridSize : ℚ) (d : List Key × ℚ) : Bool :=
  decide (¬ d.2 / (gridSize * gridSize) < 1 / 100)

/-- The sorted wall-id list a cycle datum is matched by. -/
def sortedIdsOf (g : Graph) (d : List Key × ℚ) : List String :=
  sortStable strLt (cycleWallIds g d.1)

/-- The `interiorCycles.map(...).filter(Boolean)` of `detectRooms`:
build one room per non-degenerate interior cycle, matching against the
previous room list by sorted wall-id equality; `idx` counts every
interior cycle (degenerate ones included, as in the source) and `c`
indexes the `generateId()` stream, consumed lazily exactly where the
source's `existing?.id || generateId()` evaluates its right side.  The
JS `||` fallbacks on `id`/`name`/`ceilingHeight` fire on the falsy
values `""`/`""`/`0`. -/
def roomsOfInterior (g : Graph) (gridSize : ℚ) (prev : List Room)
    (gen : ℕ → String) : List (List Key × ℚ) → ℕ → ℕ → List Room
  | [], _, _ => []
  | d :: rest, idx, c =>
    if d.2 / (gridSize * gridSize) < 1 / 100 then
      roomsOfInterior g gridSize prev gen rest (idx + 1) c
    else
      let wids := cycleWallIds g d.1
      let sortedNew := sortStable strLt wids
      match prev.find? (fun r => sortStable strLt r.wallIds = sortedNew) with
      | some e =>
        let idp : String × ℕ := if e.id = "" then (gen c, c + 1) else (e.id, c)
        let nm := if e.name = "" then defaultName idx else e.name
        let ch := if e.ceilingHeight = 0 then defaultCeiling else e.ceilingHeight
        ⟨idp.1, nm, wids, ch⟩ :: roomsOfInterior g gridSize prev gen rest (idx + 1) idp.2
      | none =>
        ⟨gen c, defaultName idx, wids, defaultCeiling⟩ ::
          roomsOfInterior g gridSize prev gen rest (idx + 1) (c + 1)

/-- Source `detectRooms` (`roomDetection.ts`): build the graph, trace all faces,
drop the first largest-area cycle as the outer face, and reconcile the
remaining cycles against the previous room list. -/
def detectRooms (walls : List (Wall ℚ)) (gridSize : ℚ) (existingRooms : List Room)
    (gen : ℕ → String) : List Room :=
  if walls.length < 3 then []
  else
    let g := buildGraph walls
    let cycles := collectCycles g
    if cycles.length = 0 then []
    else
      let datas := cycles.map (fun c => (c, cycleArea g c))
      let oi := outerIdxOf (datas.map (·.2))
      roomsOfInterior g gridSize existingRooms gen (dropIdx datas oi) 0 0

/-- The traced candidate cycles of a wall set (stage name for the
theorems; definitionally the `cycles` of `detectRooms`). -/
def tracedCycles (walls : List (Wall ℚ)) : List (List Key) :=
  collectCycles (buildGraph walls)

/-- Absolute areas of the traced cycles, in trace order. -/
def cycleAreas (walls : List (Wall ℚ)) : List ℚ :=
  (tracedCycles walls).map (cycleArea (buildGraph walls))

/-- The sorted wall-id lists of the non-degenerate interior cycles of a
wall set (the lists `detectRooms` matches rooms by). -/
def interiorSorteds (walls : List (Wall ℚ)) (gridSize : ℚ) : List (List String) :=
  let g := buildGraph walls
  let datas := (collectCycles g).map (fun c => (c, cycleArea g c))
  (((dropIdx datas (outerIdxOf (datas.map (·.2)))).filter (passes gridSize)).map
    (sortedIdsOf g))

/-- The directed edges of a walk that starts at `prev`, passes through
`q` in order and closes at `s` (the edges a face trace marks used, in
traversal order). -/
def walkEdges (prev : Key) (q : List Key) (s : Key) : List Edge :=
  (prev :: q).zip (q ++ [s])

/-! ### Constraint solver (`constraintSolver.ts`), over `ℝ` -/

/-- Source `priorityOf`: perpendicular 0, parallel 1, horizontal/vertical 2,
fixedLength 3.  The source's `default: 99` branch is unreachable: the
constraint type is exactly the five-case union. -/
def priorityOf : ConstraintType → ℕ
  | .perpendicular => 0
  | .parallel => 1
  | .horizontal => 2
  | .vertical => 2
  | .fixedLength => 3

/-- Source `distance` (`geometry.ts`). -/
noncomputable def distance (a b : Point ℝ) : ℝ :=
  Real.sqrt ((b.x - a.x) ^ 2 + (b.y - a.y) ^ 2)

/-- Value `(cos θ, sin θ)` for `θ = atan2 v.2 v.1`: the unit vector along `v`,
and `(1, 0)` for `v = 0` (since `atan2(0,0) = 0`). -/
noncomputable def dirOfVec (v : ℝ × ℝ) : ℝ × ℝ :=
  if v = 0 then (1, 0)
  else (v.1 / Real.sqrt (v.1 ^ 2 + v.2 ^ 2), v.2 / Real.sqrt (v.1 ^ 2 + v.2 ^ 2))

/-- Value `(cos (θ + π/2), sin (θ + π/2)) = (-sin θ, cos θ)` for
`θ = atan2 v.2 v.1`: the counterclockwise unit normal of `v`, and
`(0, 1)` for `v = 0`. -/
noncomputable def perpDirVec (v : ℝ × ℝ) : ℝ × ℝ :=
  if v = 0 then (0, 1)
  else (-(v.2 / Real.sqrt (v.1 ^ 2 + v.2 ^ 2)), v.1 / Real.sqrt (v.1 ^ 2 + v.2 ^ 2))

/-- Source `projectOnAngle`: the source receives the angle and takes its cosine
and sine inside; here the caller passes that direction vector. -/
noncomputable def projectOnAngle (anchor target : Point ℝ) (dir : ℝ × ℝ)
    (fallbackDist : ℝ) : Point ℝ :=
  let dx := target.x - anchor.x
  let dy := target.y - anchor.y
  let proj := dx * dir.1 + dy * dir.2
  let proj2 := if |proj| < 1 then fallbackDist else proj
  ⟨anchor.x + dir.1 * proj2, anchor.y + dir.2 * proj2⟩

/-- Model of `walls.find(w => w.id === c.refWallId)` (never true when `refWallId`
is absent, as `=== undefined` is false for every string). -/
def findRefWall (walls : List (Wall ℝ)) (orid : Option String) : Option (Wall ℝ) :=
  walls.find? (fun w => some w.id = orid)

/-- Displacement vector `end − start` of a wall. -/
def wallVec (w : Wall ℝ) : ℝ × ℝ := (w.endP.x - w.start.x, w.endP.y - w.start.y)

/-- One arm of the constraint `switch` inside `applyConstraints`. -/
noncomputable def applyOneConstraint (walls : List (Wall ℝ)) (gridSize : ℝ)
    (anchor : Point ℝ) (currentDist : ℝ) (target : Point ℝ)
    (c : WallConstraint ℝ) : Point ℝ :=
  match c.type with
  | .perpendicular =>
    match findRefWall walls c.refWallId with
    | none => target
    | some refWall => projectOnAngle anchor target (perpDirVec (wallVec refWall)) currentDist
  | .parallel =>
    match findRefWall walls c.refWallId with
    | none => target
    | some refWall => projectOnAngle anchor target (dirOfVec (wallVec refWall)) currentDist
  | .horizontal => ⟨target.x, anchor.y⟩
  | .vertical => ⟨anchor.x, target.y⟩
  | .fixedLength =>
    match c.fixedLengthM with
    | none => target
    | some len =>
      let lenPx := len * gridSize
      let dir := dirOfVec (target.x - anchor.x, target.y - anchor.y)
      ⟨anchor.x + dir.1 * lenPx, anchor.y + dir.2 * lenPx⟩

/-- Which endpoint the solver is correcting (`'end' | 'start'`). -/
inductive MovingEndpoint where
  | endPoint
  | startPoint
deriving DecidableEq, Repr

/-- The fixed endpoint. -/
def anchorOf (wall : Wall ℝ) : MovingEndpoint → Point ℝ
  | .endPoint => wall.start
  | .startPoint => wall.endP

/-- The moving endpoint (the solver's initial `target`). -/
def targetOf (wall : Wall ℝ) : MovingEndpoint → Point ℝ
  | .endPoint => wall.endP
  | .startPoint => wall.start

/-- Source `applyConstraints`: stable-sort the wall's constraints by priority
and run them left to right, each output becoming the next input; the
pre-loop distance of anchor and moving endpoint is the fallback length
for the projection constraints. -/
noncomputable def applyConstraints (wall : Wall ℝ) (walls : List (Wall ℝ))
    (gridSize : ℝ) (movingEndpoint : MovingEndpoint) : Point ℝ :=
  if wall.constraints.length = 0 then targetOf wall movingEndpoint
  else
    let anchor := anchorOf wall movingEndpoint
    let currentDist := distance anchor (targetOf wall movingEndpoint)
    (sortStable (fun a b => decide (priorityOf a.type < priorityOf b.type))
        wall.constraints).foldl
      (applyOneConstraint walls gridSize anchor currentDist)
      (targetOf wall movingEndpoint)

/-! ### Store commands (`useFloorplanStore.ts`), over `ℚ` -/

/-- Pixel threshold for wall splitting (`SPLIT_THRESHOLD = 8`). -/
def SPLIT_THRESHOLD : ℚ := 8

/-- Source `pointOnWallInterior`: projection parameter of `p` on the wall;
`none` when the wall is degenerate, the parameter is outside the
interior band (`t ≤ 0.02` or `t ≥ 0.98`), or `p` is farther than
`threshold` from its projection (the source compares
`distance(p, proj) < threshold`; for a nonnegative threshold this equals
the squared comparison written here). -/
def pointOnWallInterior (p : Point ℚ) (w : Wall ℚ) (threshold : ℚ) : Option ℚ :=
  let dx := w.endP.x - w.start.x
  let dy := w.endP.y - w.start.y
  let lenSq := dx * dx + dy * dy
  if lenSq = 0 then none
  else
    let t := ((p.x - w.start.x) * dx + (p.y - w.start.y) * dy) / lenSq
    if t ≤ 1 / 50 ∨ 49 / 50 ≤ t then none
    else
      let projX := w.start.x + t * dx
      let projY := w.start.y + t * dy
      if (p.x - projX) ^ 2 + (p.y - projY) ^ 2 < threshold ^ 2 then some t else none

/-- The split point `start + t · (end − start)`. -/
def splitPointOf (w : Wall ℚ) (t : ℚ) : Point ℚ :=
  ⟨w.start.x + t * (w.endP.x - w.start.x), w.start.y + t * (w.endP.y - w.start.y)⟩

/-- The opening reassignment of a split at parameter `t`: openings on
the split wall before the split point go to the first sub-wall with
position renormalized to `position / t`, all others on it to the second
sub-wall with `(position − t) / (1 − t)`. -/
def remapOpening (oldId newId1 newId2 : String) (t : ℚ) (o : Opening ℚ) : Opening ℚ :=
  if o.wallId ≠ oldId then o
  else if o.position < t then { o with wallId := newId1, position := o.position / t }
  else { o with wallId := newId2, position := (o.position - t) / (1 - t) }

/-- The inner wall loop of `trySplitWalls` for one endpoint `p`: the
first wall whose interior `p` hits is replaced in place by its two
sub-walls (consuming two generated ids) and the openings are remapped;
the scan stops there (`break`). -/
def splitScan (p : Point ℚ) (gen : ℕ → String) (c : ℕ) (os : List (Opening ℚ)) :
    List (Wall ℚ) → List (Wall ℚ) × List (Opening ℚ) × ℕ
  | [] => ([], os, c)
  | w :: rest =>
    match pointOnWallInterior p w SPLIT_THRESHOLD with
    | none =>
      let r := splitScan p gen c os rest
      (w :: r.1, r.2.1, r.2.2)
    | some t =>
      let sp := splitPointOf w t
      let w1 : Wall ℚ := { w with id := gen c, endP := sp }
      let w2 : Wall ℚ := { w with id := gen (c + 1), start := sp }
      (w1 :: w2 :: rest, os.map (remapOpening w.id w1.id w2.id t), c + 2)

/-- Source `trySplitWalls`: process the new wall's two endpoints in turn, the
second endpoint scanning the wall list the first produced. -/
def trySplitWalls (newWall : Wall ℚ) (ws : List (Wall ℚ)) (os : List (Opening ℚ))
    (gen : ℕ → String) : List (Wall ℚ) × List (Opening ℚ) :=
  let r1 := splitScan newWall.start gen 0 os ws
  let r2 := splitScan newWall.endP gen r1.2.2 r1.2.1 r1.1
  (r2.1, r2.2.1)

/-- Source `addWall`: run the split pass and append the new wall.  No input is
rejected here; in particular there is no zero-length check. -/
def addWall (s : FloorplanState) (w : Wall ℚ) (newId : String)
    (gen : ℕ → String) : FloorplanState :=
  let newWall : Wall ℚ := { w with id := newId }
  let r := trySplitWalls newWall s.walls s.openings gen
  { s with
    walls := r.1 ++ [newWall]
    openings := r.2
    selectedWallId := some newId
    selectedOpeningId := none }

/-- Source `deleteWall`: drop the wall with the given id and every opening
whose `wallId` references it; rooms are untouched. -/
def deleteWall (s : FloorplanState) (id : String) : FloorplanState :=
  { s with
    walls := s.walls.filter (fun w => w.id != id)
    openings := s.openings.filter (fun o => o.wallId != id)
    selectedWallId := if s.selectedWallId = some id then none else s.selectedWallId
    selectedOpeningId := none }

/-- Ids of a wall list. -/
def idsOf (ws : List (Wall ℚ)) : List String := ws.map (·.id)

/-- Referential invariant of the store: every opening's position is a
valid fraction and its `wallId` references a present wall. -/
def openingsValid (os : List (Opening ℚ)) (ws : List (Wall ℚ)) : Prop :=
  ∀ o ∈ os, (0 ≤ o.position ∧ o.position ≤ 1) ∧ o.wallId ∈ idsOf ws

instance (os : List (Opening ℚ)) (ws : List (Wall ℚ)) :
    Decidable (openingsValid os ws) := by
  unfold openingsValid
  exact inferInstance

/-! ### Concrete instances used by the counterexamples and witnesses -/

/-- A bare wall of the detection/store fragment. -/
def mkWall (id : String) (x1 y1 x2 y2 : ℚ) : Wall ℚ :=
  ⟨id, ⟨x1, y1⟩, ⟨x2, y2⟩, 14 / 5, none, "", none, [], []⟩

/-- A deterministic id stream standing in for `generateId()`. -/
def idStream : ℕ → String := fun n => "g" ++ toString n

/-- A single closed triangle (both its traversals have equal area). -/
def triWalls : List (Wall ℚ) :=
  [mkWall "w1" 0 0 40 0, mkWall "w2" 40 0 0 30, mkWall "w3" 0 30 0 0]

/-- Two disjoint closed triangles: the two traversals of the smaller one
both survive outer-face exclusion, giving two rooms with identical
wall-id sets. -/
def twoTriWalls : List (Wall ℚ) :=
  [mkWall "a1" 0 0 60 0, mkWall "a2" 60 0 0 60, mkWall "a3" 0 60 0 0,
   mkWall "b1" 100 0 130 0, mkWall "b2" 130 0 100 30, mkWall "b3" 100 30 100 0]

/-- Two triangles sharing the node `(20, 20)`: the unbounded face's
traversal passes through the shared node twice. -/
def bowtieWalls : List (Wall ℚ) :=
  [mkWall "t1" 0 0 40 0, mkWall "t2" 40 0 20 20, mkWall "t3" 20 20 0 0,
   mkWall "u1" 20 20 0 40, mkWall "u2" 0 40 40 40, mkWall "u3" 40 40 20 20]

/-- A previous room list whose single room matches the first interior
cycle of `twoTriWalls` and carries the name the second interior cycle's
new room will also synthesize. -/
def prevRoomsC6 : List Room := [⟨"rA", "Helyiség 2", ["a1", "a2", "a3"], 14 / 5⟩]

/-- Junk room for `List.getD`. -/
def noRoom : Room := ⟨"", "", [], 0⟩

/-- Horizontal reference wall for the solver examples. -/
def refWallC3 : Wall ℝ := ⟨"r", ⟨0, 0⟩, ⟨10, 0⟩, 3, none, "", none, [], []⟩

/-- A wall whose end was dragged to `(3, 4)` under a perpendicular
constraint towards `refWallC3`. -/
def perpWallC3 : Wall ℝ :=
  ⟨"w", ⟨0, 0⟩, ⟨3, 4⟩, 3, none, "", none, [],
    [⟨.perpendicular, some "r", none⟩]⟩

/-- Wall list of the solver examples. -/
def wallsC3 : List (Wall ℝ) := [refWallC3, perpWallC3]

/-- A wall to be split at its midpoint (length 100 px). -/
def splitTargetWall : Wall ℚ := mkWall "base" 0 0 100 0

/-- An opening sitting at fractional position `0.25` on it. -/
def splitOpening : Opening ℚ :=
  ⟨"o1", .window, "base", 1, 1, 0, none, 1 / 4, []⟩

/-- A store state holding that wall and opening. -/
def splitState : FloorplanState :=
  ⟨[splitTargetWall], [splitOpening], [], none, none, none, .draw, 14 / 5, 0, 100⟩

/-- The empty store state. -/
def emptyState : FloorplanState :=
  ⟨[], [], [], none, none, none, .draw, 14 / 5, 0, 100⟩

/-- A zero-length wall specification (`start = end`). -/
def zeroWall : Wall ℚ := mkWall "" 5 5 5 5

/-- The priority-class concatenation a strict-priority pipeline runs
through: all perpendicular constraints (in declaration order), then all
parallel, then all horizontal/vertical, then all fixed-length ones. -/
def priClasses {α : Type} (pri : α → ℕ) (l : List α) : List α :=
  l.filter (fun a => decide (pri a = 0)) ++ l.filter (fun a => decide (pri a = 1)) ++
    l.filter (fun a => decide (pri a = 2)) ++ l.filter (fun a => decide (pri a = 3))

/-- A wall with a single `horizontal` constraint (solver witness). -/
def hWallC5 : Wall ℝ :=
  ⟨"h", ⟨0, 0⟩, ⟨3, 4⟩, 3, none, "", none, [], [⟨.horizontal, none, none⟩]⟩

/-! ## Theorems -/

/-- Generated ids: `idStream` never produces the empty (falsy) id. -/
theorem idStream_ne_empty (n : ℕ) : idStream n ≠ "" := by
  intro h
  have h1 := congrArg String.length h
  rw [show (idStream n).length = ("g" ++ toString n).length from rfl,
    String.length_append] at h1
  have h2 : ("g" : String).length = 1 := rfl
  have h3 : ("" : String).length = 0 := rfl
  omega

/-- Synthesized default names are never the empty (falsy) string. -/
theorem defaultName_ne_empty (idx : ℕ) : defaultName idx ≠ "" := by
  intro h
  have h1 := congrArg String.length h
  rw [show (defaultName idx).length = ("Helyiség " ++ toString (idx + 1)).length from rfl,
    String.length_append] at h1
  have h2 : ("Helyiség " : String).length = 9 := rfl
  have h3 : ("" : String).length = 0 := rfl
  omega

/-- The default ceiling height is truthy. -/
theorem defaultCeiling_ne_zero : defaultCeiling ≠ 0 := by decide

/-- Lemma: `find?` skips a prefix on which the predicate is false. -/
theorem find?_append_of_none {α : Type} (p : α → Bool) (l₁ l₂ : List α)
    (h : ∀ a ∈ l₁, p a = false) :
    (l₁ ++ l₂).find? p = l₂.find? p := by
  induction l₁ with
  | nil => rfl
  | cons a l ih =>
    simp only [List.cons_append, List.find?]
    rw [h a (List.mem_cons_self a l)]
    exact ih fun a' ha' => h a' (List.mem_cons_of_mem a ha')

/-- C9: `DeleteWall(id)` removes exactly the wall with that id and every
opening whose `wallId` equals `id`; every other wall, every other
opening, and the entire rooms collection are unchanged. -/
theorem deleteWall_frame (s : FloorplanState) (id : String) :
    (∀ w : Wall ℚ, w ∈ (deleteWall s id).walls ↔ w ∈ s.walls ∧ w.id ≠ id) ∧
    (∀ o : Opening ℚ, o ∈ (deleteWall s id).openings ↔ o ∈ s.openings ∧ o.wallId ≠ id) ∧
    (deleteWall s id).rooms = s.rooms := by
  refine ⟨fun w => ?_, fun o => ?_, rfl⟩ <;>
    simp [deleteWall, List.mem_filter]

/-- C8 counterexample: a zero-length `CreateWall` is not refused; on the
empty state it changes the wall collection, which afterwards holds
exactly the new zero-length wall. -/
theorem addWall_zero_length_accepted :
    (addWall emptyState zeroWall "w0" idStream).walls ≠ emptyState.walls ∧
    (addWall emptyState zeroWall "w0" idStream).walls
      = [{ zeroWall with id := "w0" }] ∧
    ({ zeroWall with id := "w0" } : Wall ℚ).start
      = ({ zeroWall with id := "w0" } : Wall ℚ).endP := by
  refine ⟨?_, by decide, by decide⟩
  decide

/-- The split scan never shrinks the wall collection. -/
theorem splitScan_walls_length (p : Point ℚ) (gen : ℕ → String) (c : ℕ)
    (os : List (Opening ℚ)) :
    ∀ ws : List (Wall ℚ), ws.length ≤ (splitScan p gen c os ws).1.length := by
  intro ws
  induction ws with
  | nil => simp [splitScan]
  | cons w rest ih =>
    simp only [splitScan]
    cases pointOnWallInterior p w SPLIT_THRESHOLD with
    | none => simpa using ih
    | some t => simp

/-- C8 (amended): `addWall` performs no zero-length rejection: even for
`start = end` it appends the new wall after the split pass, so the wall
collection strictly grows (the zero-length guard lives upstream, in the
canvas, which only issues `CreateWall` for drags longer than 5 px). -/
theorem addWall_zero_length_appends (s : FloorplanState) (w : Wall ℚ)
    (newId : String) (gen : ℕ → String) (h : w.start = w.endP) :
    (addWall s w newId gen).walls
      = (trySplitWalls { w with id := newId } s.walls s.openings gen).1
          ++ [{ w with id := newId }] ∧
    s.walls.length + 1 ≤ (addWall s w newId gen).walls.length := by
  refine ⟨rfl, ?_⟩
  show s.walls.length + 1 ≤
    ((trySplitWalls { w with id := newId } s.walls s.openings gen).1
      ++ [{ w with id := newId }]).length
  rw [List.length_append, List.length_singleton]
  have h1 := splitScan_walls_length ({ w with id := newId } : Wall ℚ).start gen 0
    s.openings s.walls
  have h2 := splitScan_walls_length ({ w with id := newId } : Wall ℚ).endP gen
    (splitScan ({ w with id := newId } : Wall ℚ).start gen 0 s.openings s.walls).2.2
    (splitScan ({ w with id := newId } : Wall ℚ).start gen 0 s.openings s.walls).2.1
    (splitScan ({ w with id := newId } : Wall ℚ).start gen 0 s.openings s.walls).1
  have : s.walls.length ≤ (trySplitWalls { w with id := newId } s.walls s.openings gen).1.length := by
    unfold trySplitWalls
    exact le_trans h1 h2
  omega

/-- C8 witness: the amended statement at the zero-length wall on the
empty state. -/
theorem addWall_zero_length_appends_witness :
    zeroWall.start = zeroWall.endP ∧
    emptyState.walls.length + 1
      ≤ (addWall emptyState zeroWall "w0" idStream).walls.length :=
  ⟨by decide, (addWall_zero_length_appends emptyState zeroWall "w0" idStream (by decide)).2⟩

/-- C1 counterexample: a lone triangle is traced as two cycles of equal
absolute area; `detectRooms` still excludes exactly one of them (one
room remains), although no cycle has a strictly largest area. -/
theorem outer_face_tie_counterexample :
    (cycleAreas triWalls).length = 2 ∧
    (cycleAreas triWalls).getD 0 0 = (cycleAreas triWalls).getD 1 0 ∧
    (detectRooms triWalls 10 [] idStream).length = 1 ∧
    ¬ ∃ i < 2, ∀ j < 2, j ≠ i →
        (cycleAreas triWalls).getD j 0 < (cycleAreas triWalls).getD i 0 := by
  refine ⟨by decide, by decide, by decide, ?_⟩
  decide

/-- C2 counterexample: on two disjoint triangles (two interior cycles
share the wall-id set of the smaller triangle) rerunning `detectRooms`
on its own output changes the third room's id and name. -/
theorem detectRooms_not_idempotent :
    detectRooms twoTriWalls 10 (detectRooms twoTriWalls 10 [] idStream) idStream
      ≠ detectRooms twoTriWalls 10 [] idStream := by
  decide

/-- C6: the code evaluated at the failing input.  A previous room
carrying the name `Helyiség 2` is matched by the first interior cycle;
the second interior cycle is unmatched and newly created, and
`detectRooms` synthesizes the already-used name `Helyiség 2` for it
(`idx + 1` naming, no uniqueness check). -/
theorem detectRooms_duplicate_name :
    ((detectRooms twoTriWalls 10 prevRoomsC6 idStream).getD 0 noRoom).name
      = "Helyiség 2" ∧
    ((detectRooms twoTriWalls 10 prevRoomsC6 idStream).getD 1 noRoom).name
      = "Helyiség 2" ∧
    ((detectRooms twoTriWalls 10 prevRoomsC6 idStream).getD 1 noRoom).id
      ∉ prevRoomsC6.map Room.id ∧
    (detectRooms twoTriWalls 10 prevRoomsC6 idStream).length = 3 := by
  refine ⟨by decide, by decide, by decide, by decide⟩

/-- C4: when an endpoint `p` of a newly created wall hits the interior
of the first such existing wall at parameter `t`, the scan replaces that
wall in place by its two sub-walls, which share the split point, and
every opening of the collection is reassigned by `remapOpening`: an
opening of the split wall with `position < t` moves to the first
sub-wall renormalized to `position / t`, one with `position ≥ t` to the
second renormalized to `(position − t) / (1 − t)`. -/
theorem splitScan_first_hit (p : Point ℚ) (gen : ℕ → String) (c : ℕ)
    (os : List (Opening ℚ)) (pre post : List (Wall ℚ)) (w : Wall ℚ) (t : ℚ)
    (hpre : ∀ w' ∈ pre, pointOnWallInterior p w' SPLIT_THRESHOLD = none)
    (hw : pointOnWallInterior p w SPLIT_THRESHOLD = some t) :
    splitScan p gen c os (pre ++ w :: post)
      = (pre ++ { w with id := gen c, endP := splitPointOf w t }
            :: { w with id := gen (c + 1), start := splitPointOf w t } :: post,
         os.map (remapOpening w.id (gen c) (gen (c + 1)) t), c + 2) ∧
    ({ w with id := gen c, endP := splitPointOf w t } : Wall ℚ).endP
      = ({ w with id := gen (c + 1), start := splitPointOf w t } : Wall ℚ).start ∧
    (∀ o ∈ os, o.wallId = w.id →
      (o.position < t →
        remapOpening w.id (gen c) (gen (c + 1)) t o
          = { o with wallId := gen c, position := o.position / t }) ∧
      (t ≤ o.position →
        remapOpening w.id (gen c) (gen (c + 1)) t o
          = { o with wallId := gen (c + 1), position := (o.position - t) / (1 - t) })) := by
  refine ⟨?_, rfl, ?_⟩
  · induction pre with
    | nil =>
      simp only [List.nil_append, splitScan, hw]
    | cons w' pre' ih =>
      have hw' : pointOnWallInterior p w' SPLIT_THRESHOLD = none :=
        hpre w' (List.mem_cons_self w' pre')
      have ihres := ih fun x hx => hpre x (List.mem_cons_of_mem w' hx)
      simp only [List.cons_append, splitScan, hw', List.append_eq, ihres]
  · intro o _ ho
    constructor
    · intro hlt
      rw [remapOpening, if_neg (by simpa using ho), if_pos hlt]
    · intro hge
      rw [remapOpening, if_neg (by simpa using ho), if_neg (not_lt.mpr hge)]

/-- C4 witness: the spec's own example — a 100 px wall split at its
midpoint (`t = 1/2`), with an opening at position `0.25` reassigned to
the first sub-wall at position `0.5`. -/
theorem splitScan_first_hit_witness :
    pointOnWallInterior ⟨50, 0⟩ splitTargetWall SPLIT_THRESHOLD = some (1 / 2) ∧
    remapOpening splitTargetWall.id (idStream 0) (idStream 1) (1 / 2) splitOpening
      = { splitOpening with wallId := idStream 0, position := 1 / 2 } :=
  ⟨by decide,
    by
      have h := ((splitScan_first_hit ⟨50, 0⟩ idStream 0 [splitOpening] [] []
        splitTargetWall (1 / 2) (by simp) (by decide)).2.2 splitOpening
        (List.mem_singleton.mpr rfl) rfl).1 (by decide)
      rw [h]
      decide⟩

/-- Any parameter the interior test returns lies strictly inside the
band `(0.02, 0.98)`; in particular `t` and `1 − t` are nonzero, so the
renormalizing divisions of a split are well-defined. -/
theorem pointOnWallInterior_bounds (p : Point ℚ) (w : Wall ℚ) (th t : ℚ)
    (h : pointOnWallInterior p w th = some t) :
    1 / 50 < t ∧ t < 49 / 50 := by
  simp only [pointOnWallInterior] at h
  split_ifs at h with h1 h2 h3
  obtain rfl := Option.some.inj h
  push_neg at h2
  exact h2

/-- Validity is preserved through one endpoint's split scan, with the
untouched context `K` of walls carried along. -/
theorem splitScan_valid (p : Point ℚ) (gen : ℕ → String) :
    ∀ (ws K : List (Wall ℚ)) (os : List (Opening ℚ)) (c : ℕ),
      (∀ o ∈ os, 0 ≤ o.position ∧ o.position ≤ 1) →
      (∀ o ∈ os, o.wallId ∈ idsOf K ∨ o.wallId ∈ idsOf ws) →
      (∀ o ∈ (splitScan p gen c os ws).2.1, 0 ≤ o.position ∧ o.position ≤ 1) ∧
      (∀ o ∈ (splitScan p gen c os ws).2.1,
        o.wallId ∈ idsOf K ∨ o.wallId ∈ idsOf (splitScan p gen c os ws).1) := by
  intro ws
  induction ws with
  | nil =>
    intro K os c h1 h2
    refine ⟨fun o ho => h1 o ho, fun o ho => ?_⟩
    rcases h2 o ho with h | h
    · exact Or.inl h
    · simp [idsOf] at h
  | cons w rest ih =>
    intro K os c h1 h2
    cases hsp : pointOnWallInterior p w SPLIT_THRESHOLD with
    | none =>
      have h2' : ∀ o ∈ os, o.wallId ∈ idsOf (K ++ [w]) ∨ o.wallId ∈ idsOf rest := by
        intro o ho
        rcases h2 o ho with h | h
        · exact Or.inl (by simp [idsOf] at h ⊢; exact Or.inl h)
        · rcases (by simpa [idsOf] using h : o.wallId = w.id ∨ o.wallId ∈ idsOf rest) with
            h | h
          · exact Or.inl (by simp [idsOf, h])
          · exact Or.inr h
      have ihr := ih (K ++ [w]) os c h1 h2'
      simp only [splitScan, hsp]
      refine ⟨fun o ho => ihr.1 o ho, fun o ho => ?_⟩
      rcases ihr.2 o ho with h | h
      · rcases (by simpa [idsOf] using h : o.wallId ∈ idsOf K ∨ o.wallId = w.id) with
          h | h
        · exact Or.inl h
        · exact Or.inr (by simp [idsOf, h])
      · exact Or.inr (by simp [idsOf] at h ⊢; exact Or.inr h)
    | some t =>
      have hb := pointOnWallInterior_bounds p w SPLIT_THRESHOLD t hsp
      have ht0 : (0 : ℚ) < t := by linarith [hb.1]
      have ht1 : t < 1 := by linarith [hb.2]
      simp only [splitScan, hsp]
      constructor
      · intro o ho
        rcases List.mem_map.mp ho with ⟨o', ho', rfl⟩
        rw [remapOpening]
        split_ifs with hid hlt
        · exact h1 o' ho'
        · constructor
          · exact div_nonneg (h1 o' ho').1 (le_of_lt ht0)
          · exact le_of_lt ((div_lt_one ht0).mpr hlt)
        · constructor
          · exact div_nonneg (by linarith [(not_lt.mp hlt : t ≤ o'.position)])
              (by linarith)
          · rw [div_le_one (by linarith)]
            linarith [(h1 o' ho').2]
      · intro o ho
        rcases List.mem_map.mp ho with ⟨o', ho', rfl⟩
        rw [remapOpening]
        split_ifs with hid
        · rcases h2 o' ho' with h | h
          · exact Or.inl h
          · rcases (by simpa [idsOf] using h : o'.wallId = w.id ∨ o'.wallId ∈ idsOf rest)
              with h | h
            · exact absurd h hid
            · exact Or.inr (by simp [idsOf] at h ⊢; exact Or.inr (Or.inr h))
        · exact Or.inr (by simp [idsOf])
        · exact Or.inr (by simp [idsOf])

/-- C10: `addWall` (including the wall splits it triggers) preserves the
referential invariant — every opening keeps a position in `[0, 1]` and a
`wallId` referencing a wall of the resulting collection — and every
interior parameter the split test yields lies in `(0.02, 0.98)`, so the
renormalizing divisions by `t` and `1 − t` are divisions by nonzero
numbers. -/
theorem addWall_preserves_openings (s : FloorplanState) (w : Wall ℚ)
    (newId : String) (gen : ℕ → String)
    (h : openingsValid s.openings s.walls) :
    openingsValid (addWall s w newId gen).openings (addWall s w newId gen).walls ∧
    ∀ (p : Point ℚ) (w' : Wall ℚ) (t : ℚ),
      pointOnWallInterior p w' SPLIT_THRESHOLD = some t →
      1 / 50 < t ∧ t < 49 / 50 ∧ t ≠ 0 ∧ 1 - t ≠ 0 := by
  constructor
  · have h1 : ∀ o ∈ s.openings, 0 ≤ o.position ∧ o.position ≤ 1 :=
      fun o ho => (h o ho).1
    have h2 : ∀ o ∈ s.openings, o.wallId ∈ idsOf ([] : List (Wall ℚ)) ∨
        o.wallId ∈ idsOf s.walls := fun o ho => Or.inr (h o ho).2
    set nw : Wall ℚ := { w with id := newId } with hnw
    have r1 := splitScan_valid nw.start gen s.walls [] s.openings 0 h1 h2
    have r1' : ∀ o ∈ (splitScan nw.start gen 0 s.openings s.walls).2.1,
        o.wallId ∈ idsOf (splitScan nw.start gen 0 s.openings s.walls).1 := by
      intro o ho
      rcases r1.2 o ho with hh | hh
      · simp [idsOf] at hh
      · exact hh
    have r2 := splitScan_valid nw.endP gen
      (splitScan nw.start gen 0 s.openings s.walls).1 []
      (splitScan nw.start gen 0 s.openings s.walls).2.1
      (splitScan nw.start gen 0 s.openings s.walls).2.2
      r1.1 (fun o ho => Or.inr (r1' o ho))
    intro o ho
    have ho' : o ∈ (trySplitWalls nw s.walls s.openings gen).2 := ho
    rw [trySplitWalls] at ho'
    refine ⟨r2.1 o ho', ?_⟩
    have := r2.2 o ho'
    rcases this with hh | hh
    · simp [idsOf] at hh
    · show o.wallId ∈ idsOf ((trySplitWalls nw s.walls s.openings gen).1 ++ [nw])
      rw [trySplitWalls]
      simp only [idsOf, List.map_append, List.mem_append]
      exact Or.inl hh
  · intro p w' t hsp
    have := pointOnWallInterior_bounds p w' SPLIT_THRESHOLD t hsp
    refine ⟨this.1, this.2, by linarith [this.1], by linarith [this.2]⟩

/-- C10 witness: the invariant holds on the one-wall-one-opening state
and is preserved by an `addWall` that actually splits the wall. -/
theorem addWall_preserves_openings_witness :
    openingsValid splitState.openings splitState.walls ∧
    openingsValid (addWall splitState (mkWall "" 50 0 50 80) "n1" idStream).openings
      (addWall splitState (mkWall "" 50 0 50 80) "n1" idStream).walls :=
  ⟨by decide,
    (addWall_preserves_openings splitState (mkWall "" 50 0 50 80) "n1" idStream
      (by decide)).1⟩

/-- Lemma: `insertStable` walks past a block whose elements do not compare
greater than the inserted element. -/
theorem insertStable_append {α : Type} (lt : α → α → Bool) (x : α)
    (B C : List α) (hB : ∀ b ∈ B, lt x b = false) :
    insertStable lt x (B ++ C) = B ++ insertStable lt x C := by
  induction B with
  | nil => rfl
  | cons b bs ih =>
    rw [List.cons_append]
    show (if lt x b then x :: b :: (bs ++ C) else b :: insertStable lt x (bs ++ C)) = _
    rw [hB b (List.mem_cons_self b bs)]
    simp only [Bool.false_eq_true, if_false, List.cons_append]
    rw [ih fun b' hb' => hB b' (List.mem_cons_of_mem b hb')]

/-- Lemma: `insertStable` stops in front of a block every element of which
compares greater. -/
theorem insertStable_front {α : Type} (lt : α → α → Bool) (x : α)
    (C : List α) (hC : ∀ c ∈ C, lt x c = true) :
    insertStable lt x C = x :: C := by
  cases C with
  | nil => rfl
  | cons c cs =>
    show (if lt x c then x :: c :: cs else _) = _
    rw [hC c (List.mem_cons_self c cs)]
    simp

/-- Elements of a priority-filtered block have that priority. -/
theorem mem_filter_pri {α : Type} (pri : α → ℕ) (k : ℕ) (m : List α) (b : α)
    (hb : b ∈ m.filter (fun a => decide (pri a = k))) : pri b = k :=
  of_decide_eq_true (List.mem_filter.mp hb).2

/-- Lemma: `insertStable` appends at the very end when nothing compares
greater. -/
theorem insertStable_last {α : Type} (lt : α → α → Bool) (x : α)
    (B : List α) (hB : ∀ b ∈ B, lt x b = false) :
    insertStable lt x B = B ++ [x] := by
  induction B with
  | nil => rfl
  | cons b bs ih =>
    show (if lt x b then x :: b :: bs else b :: insertStable lt x bs) = _
    rw [hB b (List.mem_cons_self b bs)]
    simp only [Bool.false_eq_true, if_false, List.cons_append]
    rw [ih fun b' hb' => hB b' (List.mem_cons_of_mem b hb')]

/-- Inserting into a priority-class concatenation appends the element at
the end of its own class (the stability step of a priority sort). -/
theorem insertStable_priClasses {α : Type} (pri : α → ℕ) (hb : ∀ a, pri a < 4)
    (x : α) (m : List α) :
    insertStable (fun a b => decide (pri a < pri b)) x (priClasses pri m)
      = priClasses pri (m ++ [x]) := by
  have hf : ∀ k : ℕ, (m ++ [x]).filter (fun a => decide (pri a = k))
      = m.filter (fun a => decide (pri a = k))
        ++ if pri x = k then [x] else [] := by
    intro k
    rw [List.filter_append]
    congr 1
    by_cases hk : pri x = k <;> simp [List.filter, hk]
  have hx4 := hb x
  rw [priClasses, priClasses, hf 0, hf 1, hf 2, hf 3]
  simp only [List.append_assoc]
  interval_cases hx : pri x
  · rw [insertStable_append _ x _ _ (fun b hbm => by
        rw [show (decide (pri x < pri b)) = false from by
          rw [mem_filter_pri pri 0 m b hbm, hx]; rfl]),
      insertStable_front _ x _ (fun c hc => by
        rw [show (decide (pri x < pri c)) = true from by
          rcases List.mem_append.mp hc with hc | hc
          · rw [mem_filter_pri pri 1 m c hc, hx]; rfl
          · rcases List.mem_append.mp hc with hc | hc
            · rw [mem_filter_pri pri 2 m c hc, hx]; rfl
            · rw [mem_filter_pri pri 3 m c hc, hx]; rfl])]
    simp
  · rw [insertStable_append _ x _ _ (fun b hbm => by
        rw [show (decide (pri x < pri b)) = false from by
          rw [mem_filter_pri pri 0 m b hbm, hx]; rfl]),
      insertStable_append _ x _ _ (fun b hbm => by
        rw [show (decide (pri x < pri b)) = false from by
          rw [mem_filter_pri pri 1 m b hbm, hx]; rfl]),
      insertStable_front _ x _ (fun c hc => by
        rw [show (decide (pri x < pri c)) = true from by
          rcases List.mem_append.mp hc with hc | hc
          · rw [mem_filter_pri pri 2 m c hc, hx]; rfl
          · rw [mem_filter_pri pri 3 m c hc, hx]; rfl])]
    simp
  · rw [insertStable_append _ x _ _ (fun b hbm => by
        rw [show (decide (pri x < pri b)) = false from by
          rw [mem_filter_pri pri 0 m b hbm, hx]; rfl]),
      insertStable_append _ x _ _ (fun b hbm => by
        rw [show (decide (pri x < pri b)) = false from by
          rw [mem_filter_pri pri 1 m b hbm, hx]; rfl]),
      insertStable_append _ x _ _ (fun b hbm => by
        rw [show (decide (pri x < pri b)) = false from by
          rw [mem_filter_pri pri 2 m b hbm, hx]; rfl]),
      insertStable_front _ x _ (fun c hc => by
        rw [show (decide (pri x < pri c)) = true from by
          rw [mem_filter_pri pri 3 m c hc, hx]; rfl])]
    simp
  · rw [insertStable_append _ x _ _ (fun b hbm => by
        rw [show (decide (pri x < pri b)) = false from by
          rw [mem_filter_pri pri 0 m b hbm, hx]; rfl]),
      insertStable_append _ x _ _ (fun b hbm => by
        rw [show (decide (pri x < pri b)) = false from by
          rw [mem_filter_pri pri 1 m b hbm, hx]; rfl]),
      insertStable_append _ x _ _ (fun b hbm => by
        rw [show (decide (pri x < pri b)) = false from by
          rw [mem_filter_pri pri 2 m b hbm, hx]; rfl]),
      insertStable_last _ x _ (fun b hbm => by
        rw [show (decide (pri x < pri b)) = false from by
          rw [mem_filter_pri pri 3 m b hbm, hx]; rfl])]
    simp

/-- A stable sort by a priority bounded by 4 is exactly the
concatenation of the four priority classes in original order —
JS's stable `sort` with the comparator `priorityOf a − priorityOf b`. -/
theorem sortStable_priClasses {α : Type} (pri : α → ℕ) (hb : ∀ a, pri a < 4)
    (l : List α) :
    sortStable (fun a b => decide (pri a < pri b)) l = priClasses pri l := by
  have key : ∀ (l' m : List α),
      l'.foldl (fun acc x => insertStable (fun a b => decide (pri a < pri b)) x acc)
        (priClasses pri m) = priClasses pri (m ++ l') := by
    intro l'
    induction l' with
    | nil => intro m; simp
    | cons x xs ih =>
      intro m
      rw [List.foldl_cons, insertStable_priClasses pri hb x m, ih (m ++ [x])]
      simp
  have h0 := key l []
  simpa [sortStable, priClasses] using h0

/-- C5: `applyConstraints` equals the ordered substitution pipeline that
applies the wall's constraints one at a time in strict priority order —
all perpendicular constraints first, then parallel, then
horizontal/vertical, then fixed-length — each constraint's output
endpoint being the next constraint's input. -/
theorem applyConstraints_pipeline (wall : Wall ℝ) (walls : List (Wall ℝ))
    (gridSize : ℝ) (me : MovingEndpoint) (h : wall.constraints ≠ []) :
    applyConstraints wall walls gridSize me
      = (priClasses (fun c => priorityOf c.type) wall.constraints).foldl
          (applyOneConstraint walls gridSize (anchorOf wall me)
            (distance (anchorOf wall me) (targetOf wall me)))
          (targetOf wall me) := by
  rw [applyConstraints, if_neg (by simpa [List.length_eq_zero] using h)]
  dsimp only
  exact congrArg
    (List.foldl (applyOneConstraint walls gridSize (anchorOf wall me)
      (distance (anchorOf wall me) (targetOf wall me))) (targetOf wall me))
    (sortStable_priClasses (fun c : WallConstraint ℝ => priorityOf c.type)
      (fun c => by cases hc : c.type <;> simp [priorityOf, hc]) wall.constraints)

/-- C5 witness: the pipeline equality at a wall with one horizontal
constraint. -/
theorem applyConstraints_pipeline_witness :
    hWallC5.constraints ≠ [] ∧
    applyConstraints hWallC5 [] 100 .endPoint
      = (priClasses (fun c => priorityOf c.type) hWallC5.constraints).foldl
          (applyOneConstraint [] 100 (anchorOf hWallC5 .endPoint)
            (distance (anchorOf hWallC5 .endPoint) (targetOf hWallC5 .endPoint)))
          (targetOf hWallC5 .endPoint) :=
  ⟨List.cons_ne_nil _ _,
    applyConstraints_pipeline hWallC5 [] 100 .endPoint (List.cons_ne_nil _ _)⟩

/-- The perpendicular direction is orthogonal to its source vector. -/
theorem perpDirVec_dot (v : ℝ × ℝ) :
    (perpDirVec v).1 * v.1 + (perpDirVec v).2 * v.2 = 0 := by
  rw [perpDirVec]
  split_ifs with h
  · simp [h]
  · ring

/-- The perpendicular direction is a unit vector (also in the
degenerate `v = 0` case, where it is `(0, 1)`). -/
theorem perpDirVec_norm (v : ℝ × ℝ) :
    (perpDirVec v).1 ^ 2 + (perpDirVec v).2 ^ 2 = 1 := by
  rw [perpDirVec]
  split_ifs with h
  · norm_num
  · have h1 : v.1 ≠ 0 ∨ v.2 ≠ 0 := by
      by_contra hc
      push_neg at hc
      exact h (Prod.ext hc.1 hc.2)
    have hq : 0 < v.1 ^ 2 + v.2 ^ 2 := by
      rcases h1 with h1 | h1
      · nlinarith [pow_two_pos_of_ne_zero h1, sq_nonneg v.2]
      · nlinarith [pow_two_pos_of_ne_zero h1, sq_nonneg v.1]
    have hs : Real.sqrt (v.1 ^ 2 + v.2 ^ 2) ^ 2 = v.1 ^ 2 + v.2 ^ 2 :=
      Real.sq_sqrt (le_of_lt hq)
    have hsne : Real.sqrt (v.1 ^ 2 + v.2 ^ 2) ≠ 0 :=
      (Real.sqrt_ne_zero'.mpr hq)
    field_simp
    linarith [hs]

/-- Distance from `a` to `a + k · u`. -/
theorem distance_offset (a : Point ℝ) (u : ℝ × ℝ) (k : ℝ) :
    distance a ⟨a.x + u.1 * k, a.y + u.2 * k⟩
      = |k| * Real.sqrt (u.1 ^ 2 + u.2 ^ 2) := by
  rw [distance]
  rw [show (a.x + u.1 * k - a.x) ^ 2 + (a.y + u.2 * k - a.y) ^ 2
      = k ^ 2 * (u.1 ^ 2 + u.2 ^ 2) from by ring,
    Real.sqrt_mul (sq_nonneg k), Real.sqrt_sq_eq_abs]

/-- Distances are nonnegative. -/
theorem distance_nonneg (a b : Point ℝ) : 0 ≤ distance a b :=
  Real.sqrt_nonneg _

/-- C3 (amended): under a single perpendicular constraint naming an
existing reference wall, the corrected endpoint is orthogonal to the
reference wall's direction as claimed, but its distance from the anchor
is the absolute value of the projection of the dragged vector onto the
perpendicular direction — the pre-constraint length is restored only in
the fallback branch `|projection| < 1`. -/
theorem applyConstraints_perpendicular (wall : Wall ℝ) (walls : List (Wall ℝ))
    (gridSize : ℝ) (rc : WallConstraint ℝ) (refWall : Wall ℝ)
    (hc : wall.constraints = [rc]) (ht : rc.type = .perpendicular)
    (href : findRefWall walls rc.refWallId = some refWall) :
    ((applyConstraints wall walls gridSize .endPoint).x - wall.start.x)
        * (wallVec refWall).1
      + ((applyConstraints wall walls gridSize .endPoint).y - wall.start.y)
        * (wallVec refWall).2 = 0 ∧
    distance wall.start (applyConstraints wall walls gridSize .endPoint)
      = (if |(wall.endP.x - wall.start.x) * (perpDirVec (wallVec refWall)).1
            + (wall.endP.y - wall.start.y) * (perpDirVec (wallVec refWall)).2| < 1
         then distance wall.start wall.endP
         else |(wall.endP.x - wall.start.x) * (perpDirVec (wallVec refWall)).1
            + (wall.endP.y - wall.start.y) * (perpDirVec (wallVec refWall)).2|) := by
  have happ : applyConstraints wall walls gridSize .endPoint
      = projectOnAngle wall.start wall.endP (perpDirVec (wallVec refWall))
          (distance wall.start wall.endP) := by
    rw [applyConstraints, if_neg (by simp [hc]), hc]
    show List.foldl _ _ (sortStable _ [rc]) = _
    rw [show sortStable (fun a b =>
        decide (priorityOf a.type < priorityOf b.type)) [rc] = [rc] from rfl]
    rw [List.foldl_cons, List.foldl_nil]
    show applyOneConstraint walls gridSize (anchorOf wall .endPoint)
      (distance (anchorOf wall .endPoint) (targetOf wall .endPoint))
      (targetOf wall .endPoint) rc = _
    rw [applyOneConstraint, ht]
    rw [href]
    rfl
  rw [happ]
  rw [projectOnAngle]
  set pd := perpDirVec (wallVec refWall) with hpd
  set pr := (wall.endP.x - wall.start.x) * pd.1
    + (wall.endP.y - wall.start.y) * pd.2 with hpr
  set k := if |pr| < 1 then distance wall.start wall.endP else pr with hk
  constructor
  · have hd := perpDirVec_dot (wallVec refWall)
    calc (wall.start.x + pd.1 * k - wall.start.x) * (wallVec refWall).1
          + (wall.start.y + pd.2 * k - wall.start.y) * (wallVec refWall).2
        = k * (pd.1 * (wallVec refWall).1 + pd.2 * (wallVec refWall).2) := by ring
      _ = 0 := by rw [← hpd] at hd; rw [hd]; ring
  · rw [distance_offset wall.start pd k,
      show pd.1 ^ 2 + pd.2 ^ 2 = 1 from by
        rw [hpd]; exact perpDirVec_norm (wallVec refWall),
      Real.sqrt_one, mul_one, hk]
    split_ifs with hflb
    · exact abs_of_nonneg (distance_nonneg _ _)
    · rfl

/-- Distance evaluation at concrete points via a known square. -/
theorem distance_eval (x1 y1 x2 y2 d : ℝ) (hd : 0 ≤ d)
    (h : (x2 - x1) ^ 2 + (y2 - y1) ^ 2 = d ^ 2) :
    distance ⟨x1, y1⟩ ⟨x2, y2⟩ = d := by
  rw [distance]
  show Real.sqrt ((x2 - x1) ^ 2 + (y2 - y1) ^ 2) = d
  rw [h, Real.sqrt_sq hd]

/-- C3 counterexample: anchor `(0,0)`, endpoint dragged to `(3,4)`,
horizontal reference wall.  The perpendicular correction returns
`(0,4)`: the corrected length is the projection component 4, not the
pre-constraint distance 5 (and the near-zero fallback did not fire). -/
theorem perpendicular_changes_length :
    applyConstraints perpWallC3 wallsC3 100 .endPoint = ⟨0, 4⟩ ∧
    distance perpWallC3.start (applyConstraints perpWallC3 wallsC3 100 .endPoint) = 4 ∧
    distance perpWallC3.start perpWallC3.endP = 5 := by
  have hd5 : distance (⟨0, 0⟩ : Point ℝ) ⟨3, 4⟩ = 5 :=
    distance_eval 0 0 3 4 5 (by norm_num) (by norm_num)
  have hwv : wallVec refWallC3 = ((10 : ℝ), (0 : ℝ)) := by
    rw [wallVec]
    show ((10 : ℝ) - 0, (0 : ℝ) - 0) = _
    norm_num
  have hpd : perpDirVec ((10 : ℝ), (0 : ℝ)) = (0, 1) := by
    rw [perpDirVec, if_neg (by norm_num [Prod.ext_iff] : ¬ ((10 : ℝ), (0 : ℝ)) = 0)]
    rw [show ((10 : ℝ), (0 : ℝ)).1 ^ 2 + ((10 : ℝ), (0 : ℝ)).2 ^ 2 = 10 ^ 2 by norm_num,
      Real.sqrt_sq (by norm_num : (0 : ℝ) ≤ 10)]
    norm_num [Prod.ext_iff]
  have happ : applyConstraints perpWallC3 wallsC3 100 .endPoint
      = projectOnAngle ⟨0, 0⟩ ⟨3, 4⟩ (perpDirVec (wallVec refWallC3))
          (distance ⟨0, 0⟩ ⟨3, 4⟩) := rfl
  have hproj : projectOnAngle ⟨0, 0⟩ ⟨3, 4⟩ ((0 : ℝ), (1 : ℝ)) 5 = ⟨0, 4⟩ := by
    rw [projectOnAngle]
    dsimp only
    norm_num
  rw [happ, hwv, hpd, hd5, hproj]
  refine ⟨rfl, ?_, ?_⟩
  · show distance (⟨0, 0⟩ : Point ℝ) ⟨0, 4⟩ = 4
    exact distance_eval 0 0 0 4 4 (by norm_num) (by norm_num)
  · show distance (⟨0, 0⟩ : Point ℝ) ⟨3, 4⟩ = 5
    exact hd5

/-- C3 witness: the amended statement applied to the 3-4-5 example. -/
theorem applyConstraints_perpendicular_witness :
    perpWallC3.constraints = [⟨.perpendicular, some "r", none⟩] ∧
    findRefWall wallsC3 (some "r") = some refWallC3 ∧
    ((applyConstraints perpWallC3 wallsC3 100 .endPoint).x - perpWallC3.start.x)
        * (wallVec refWallC3).1
      + ((applyConstraints perpWallC3 wallsC3 100 .endPoint).y - perpWallC3.start.y)
        * (wallVec refWallC3).2 = 0 :=
  ⟨rfl, rfl,
    (applyConstraints_perpendicular perpWallC3 wallsC3 100
      ⟨.perpendicular, some "r", none⟩ refWallC3 rfl rfl rfl).1⟩

/-- C7 counterexample: on the bowtie graph the trace of the unbounded
face returns a face whose walk revisits the shared node `(20, 20)`
before closing — a node revisit does not abort the trace. -/
theorem traceFace_revisit_returns_face :
    ((traceFace (buildGraph bowtieWalls) (0, 0) (20, 20) []).1).isSome ∧
    ¬ (((traceFace (buildGraph bowtieWalls) (0, 0) (20, 20) []).1).getD []).Nodup := by
  refine ⟨by decide, ?_⟩
  decide

/-- Invariant of the trace loop: a successful run extends the path by
some node list `q`, its traversed edges are exactly the fresh additions
to the used set, they are pairwise distinct and unused, and the step
count stays within the remaining fuel. -/
theorem traceGo_spec (g : Graph) (s : Key) :
    ∀ (fuel : ℕ) (path : List Key) (prev cur : Key) (used used' : List Edge)
      (p : List Key),
      traceGo g s fuel path prev cur used = (some p, used') →
      ∃ q, p = path ++ q ∧
        used' = (walkEdges prev q s).reverse ++ used ∧
        (walkEdges prev q s).Nodup ∧
        (∀ e ∈ walkEdges prev q s, e ∉ used) ∧
        q.length + 1 ≤ fuel := by
  intro fuel
  induction fuel with
  | zero =>
    intro path prev cur used used' p h
    rw [traceGo] at h
    simp at h
  | succ fuel ih =>
    intro path prev cur used used' p h
    rw [traceGo] at h
    split_ifs at h with hmem hstart
    · simp at h
    · simp only [Prod.mk.injEq, Option.some.injEq] at h
      obtain ⟨hp, hu⟩ := h
      subst hstart
      subst hp
      refine ⟨[], by simp, ?_, by simp [walkEdges], ?_, by
        simp only [List.length_nil]; omega⟩
      · rw [← hu]
        rfl
      · intro e he
        rw [show walkEdges prev [] cur = [(prev, cur)] from rfl] at he
        simp only [List.mem_singleton] at he
        subst he
        exact hmem
    · dsimp only at h
      cases hg : graphGet g cur with
      | none => rw [hg] at h; simp at h
      | some node =>
        rw [hg] at h
        dsimp only at h
        split_ifs at h with hdeg
        · simp at h
        · cases hf : node.neighbors.findIdx? (fun nb => nb.key = prev) with
          | none => rw [hf] at h; simp at h
          | some ri =>
            rw [hf] at h
            dsimp only at h
            obtain ⟨q₂, hq1, hq2, hq3, hq4, hq5⟩ := ih _ _ _ _ _ _ h
            have hw : walkEdges prev (cur :: q₂) s
                = (prev, cur) :: walkEdges cur q₂ s := rfl
            refine ⟨cur :: q₂, by simp [hq1, List.append_assoc], ?_, ?_, ?_, by
              simp only [List.length_cons]; omega⟩
            · rw [hw, List.reverse_cons, hq2, List.append_assoc]
              rfl
            · rw [hw, List.nodup_cons]
              refine ⟨fun hin => hq4 _ hin (List.mem_cons_self _ _), hq3⟩
            · intro e he
              rw [hw] at he
              rcases List.mem_cons.mp he with rfl | he
              · exact hmem
              · exact fun hin => hq4 e he (List.mem_cons_of_mem _ hin)

/-- C7 (amended): a face trace returns no face when it reaches a
directed edge already used (by itself or an earlier trace) or when it
exceeds the 50-step bound without closing — but a node revisit alone
does not abort.  Hence every returned face is a walk from the start node
whose directed edges are pairwise distinct and previously unused, with
at most 50 nodes, and the used-edge set grows by exactly those edges. -/
theorem traceFace_edges (g : Graph) (s t : Key) (used used' : List Edge)
    (p : List Key) (h : traceFace g s t used = (some p, used')) :
    ∃ q, p = s :: q ∧
      used' = (walkEdges s q s).reverse ++ used ∧
      (walkEdges s q s).Nodup ∧
      (∀ e ∈ walkEdges s q s, e ∉ used) ∧
      p.length ≤ maxSteps := by
  obtain ⟨q, hq1, hq2, hq3, hq4, hq5⟩ :=
    traceGo_spec g s maxSteps [s] s t used used' p h
  have hms : maxSteps = 50 := rfl
  refine ⟨q, by simpa using hq1, hq2, hq3, hq4, ?_⟩
  rw [hq1]
  simp only [List.singleton_append, List.length_cons]
  omega

/-- C7 witness: the trace-edge invariant at a concrete successful trace
of the triangle. -/
theorem traceFace_edges_witness :
    traceFace (buildGraph triWalls) (0, 0) (40, 0) []
      = (some [(0, 0), (40, 0), (0, 30)],
         [((0, 30), (0, 0)), ((40, 0), (0, 30)), ((0, 0), (40, 0))]) ∧
    ∃ q, ([(0, 0), (40, 0), (0, 30)] : List Key) = (0, 0) :: q ∧
      ([((0, 30), (0, 0)), ((40, 0), (0, 30)), ((0, 0), (40, 0))] : List Edge)
        = (walkEdges (0, 0) q (0, 0)).reverse ++ [] ∧
      (walkEdges (0, 0) q (0, 0)).Nodup ∧
      (∀ e ∈ walkEdges (0, 0) q (0, 0), e ∉ ([] : List Edge)) ∧
      ([(0, 0), (40, 0), (0, 30)] : List Key).length ≤ maxSteps :=
  ⟨by decide,
    traceFace_edges (buildGraph triWalls) (0, 0) (40, 0) [] _ _ (by decide)⟩

/-- Invariant of the outer-face fold: the result is the seed index with
every area at most the seed maximum, or the absolute position of the
first entry attaining the list's maximum beyond the seed. -/
theorem outerFold_spec :
    ∀ (l : List ℚ) (m : ℚ) (i b : ℕ), 0 ≤ m →
      (outerFold l m i b = b ∧ ∀ j < l.length, l.getD j 0 ≤ m) ∨
      (∃ k < l.length, outerFold l m i b = i + k ∧ m < l.getD k 0 ∧
        (∀ j < l.length, l.getD j 0 ≤ l.getD k 0) ∧
        ∀ j < k, l.getD j 0 < l.getD k 0) := by
  intro l
  induction l with
  | nil =>
    intro m i b hm
    left
    exact ⟨rfl, by simp⟩
  | cons a rest ih =>
    intro m i b hm
    rw [outerFold]
    split_ifs with ha
    · rcases ih a (i + 1) i (le_trans hm (le_of_lt ha)) with
        ⟨hr, hall⟩ | ⟨k, hk, hr, hmk, hall, hfirst⟩
      · right
        refine ⟨0, by simp, by rw [hr]; omega, by simpa using ha, ?_, by omega⟩
        intro j hj
        cases j with
        | zero => simp
        | succ j =>
          simp only [List.getD_cons_succ, List.getD_cons_zero]
          exact hall j (by simpa using hj)
      · right
        refine ⟨k + 1, by simpa using hk, by rw [hr]; omega, ?_, ?_, ?_⟩
        · simpa using lt_trans ha hmk
        · intro j hj
          cases j with
          | zero =>
            simp only [List.getD_cons_succ, List.getD_cons_zero]
            exact le_of_lt hmk
          | succ j =>
            simp only [List.getD_cons_succ]
            exact hall j (by simpa using hj)
        · intro j hj
          cases j with
          | zero =>
            simp only [List.getD_cons_succ, List.getD_cons_zero]
            exact hmk
          | succ j =>
            simp only [List.getD_cons_succ]
            exact hfirst j (by omega)
    · rcases ih m (i + 1) b hm with
        ⟨hr, hall⟩ | ⟨k, hk, hr, hmk, hall, hfirst⟩
      · left
        refine ⟨hr, ?_⟩
        intro j hj
        cases j with
        | zero => simpa using not_lt.mp ha
        | succ j =>
          simp only [List.getD_cons_succ]
          exact hall j (by simpa using hj)
      · right
        refine ⟨k + 1, by simpa using hk, by rw [hr]; omega, ?_, ?_, ?_⟩
        · simpa using hmk
        · intro j hj
          cases j with
          | zero =>
            simp only [List.getD_cons_succ, List.getD_cons_zero]
            exact le_of_lt (lt_of_le_of_lt (not_lt.mp ha) hmk)
          | succ j =>
            simp only [List.getD_cons_succ]
            exact hall j (by simpa using hj)
        · intro j hj
          cases j with
          | zero =>
            simp only [List.getD_cons_succ, List.getD_cons_zero]
            exact lt_of_le_of_lt (not_lt.mp ha) hmk
          | succ j =>
            simp only [List.getD_cons_succ]
            exact hfirst j (by omega)

/-- The excluded index is the first index attaining the maximum area
(for nonnegative areas). -/
theorem outerIdxOf_spec (areas : List ℚ) (h0 : ∀ a ∈ areas, 0 ≤ a)
    (hne : areas ≠ []) :
    outerIdxOf areas < areas.length ∧
    (∀ j < areas.length, areas.getD j 0 ≤ areas.getD (outerIdxOf areas) 0) ∧
    (∀ j < outerIdxOf areas, areas.getD j 0 < areas.getD (outerIdxOf areas) 0) := by
  have hlen : 0 < areas.length := List.length_pos.mpr hne
  rcases outerFold_spec areas 0 0 0 (le_refl 0) with
    ⟨hr, hall⟩ | ⟨k, hk, hr, hmk, hall, hfirst⟩
  · rw [outerIdxOf, hr]
    have h00 : areas.getD 0 0 = 0 := by
      have hle := hall 0 hlen
      have hge : 0 ≤ areas.getD 0 0 := by
        rcases areas with _ | ⟨a, rest⟩
        · simp at hne
        · simpa using h0 a (List.mem_cons_self a rest)
      linarith
    refine ⟨hlen, ?_, by omega⟩
    intro j hj
    rw [h00]
    exact hall j hj
  · rw [outerIdxOf, hr, Nat.zero_add]
    exact ⟨by omega, fun j hj => hall j hj, fun j hj => hfirst j hj⟩

/-- Removing one index shortens the list by one. -/
theorem dropIdx_length {α : Type} :
    ∀ (l : List α) (k : ℕ), k < l.length → (dropIdx l k).length + 1 = l.length := by
  intro l
  induction l with
  | nil => intro k hk; simp at hk
  | cons a rest ih =>
    intro k hk
    cases k with
    | zero => simp [dropIdx]
    | succ k =>
      rw [dropIdx]
      simp only [List.length_cons]
      rw [ih k (by simpa using hk)]

/-- One room is produced per interior cycle surviving the degeneracy
filter. -/
theorem roomsOfInterior_length (g : Graph) (gs : ℚ) (prev : List Room)
    (gen : ℕ → String) :
    ∀ (I : List (List Key × ℚ)) (idx c : ℕ),
      (roomsOfInterior g gs prev gen I idx c).length
        = (I.filter (passes gs)).length := by
  intro I
  induction I with
  | nil => intro idx c; rfl
  | cons d rest ih =>
    intro idx c
    rw [roomsOfInterior]
    by_cases hp : d.2 / (gs * gs) < 1 / 100
    · rw [if_pos hp]
      rw [ih, List.filter_cons, show passes gs d = false from by
        rw [passes, decide_eq_false_iff_not]; exact not_not_intro hp]
      simp
    · rw [if_neg hp]
      have hpass : passes gs d = true := by
        rw [passes, decide_eq_true_eq]; exact hp
      cases hf : prev.find? (fun r =>
          sortStable strLt r.wallIds = sortStable strLt (cycleWallIds g d.1)) with
      | none =>
        simp only [hf, List.length_cons, List.filter_cons, hpass, if_true]
        rw [ih]
      | some e =>
        simp only [hf, List.length_cons, List.filter_cons, hpass, if_true]
        rw [ih]

/-- C1 (amended): when at least two candidate cycles are traced (and the
run is not cut short by the under-3-walls guard), `detectRooms` excludes
exactly one cycle — the first-traced cycle attaining the maximum
absolute area (which is the strictly largest cycle whenever one exists):
every cycle's area is at most the excluded one's, every earlier cycle's
area is strictly below it, and the rooms are built from precisely the
remaining cycles, one room per cycle surviving the degeneracy filter. -/
theorem detectRooms_outer_exclusion (walls : List (Wall ℚ)) (gs : ℚ)
    (prev : List Room) (gen : ℕ → String)
    (h3 : 3 ≤ walls.length) (h2 : 2 ≤ (tracedCycles walls).length) :
    outerIdxOf (cycleAreas walls) < (tracedCycles walls).length ∧
    (∀ j < (tracedCycles walls).length,
      (cycleAreas walls).getD j 0
        ≤ (cycleAreas walls).getD (outerIdxOf (cycleAreas walls)) 0) ∧
    (∀ j < outerIdxOf (cycleAreas walls),
      (cycleAreas walls).getD j 0
        < (cycleAreas walls).getD (outerIdxOf (cycleAreas walls)) 0) ∧
    (dropIdx ((tracedCycles walls).map
        (fun c => (c, cycleArea (buildGraph walls) c)))
        (outerIdxOf (cycleAreas walls))).length + 1
      = (tracedCycles walls).length ∧
    detectRooms walls gs prev gen
      = roomsOfInterior (buildGraph walls) gs prev gen
          (dropIdx ((tracedCycles walls).map
            (fun c => (c, cycleArea (buildGraph walls) c)))
            (outerIdxOf (cycleAreas walls))) 0 0 ∧
    (detectRooms walls gs prev gen).length
      = ((dropIdx ((tracedCycles walls).map
          (fun c => (c, cycleArea (buildGraph walls) c)))
          (outerIdxOf (cycleAreas walls))).filter (passes gs)).length := by
  have hareas : ((tracedCycles walls).map
      (fun c => (c, cycleArea (buildGraph walls) c))).map (·.2)
        = cycleAreas walls := by
    rw [cycleAreas, List.map_map]
    rfl
  have h0 : ∀ a ∈ cycleAreas walls, 0 ≤ a := by
    intro a ha
    rw [cycleAreas] at ha
    rcases List.mem_map.mp ha with ⟨c, _, rfl⟩
    exact abs_nonneg _
  have hlen : (cycleAreas walls).length = (tracedCycles walls).length := by
    rw [cycleAreas, List.length_map]
  have hne : cycleAreas walls ≠ [] := by
    intro hn
    rw [hn] at hlen
    simp at hlen
    omega
  obtain ⟨ho1, ho2, ho3⟩ := outerIdxOf_spec (cycleAreas walls) h0 hne
  have hdlen : ((tracedCycles walls).map
      (fun c => (c, cycleArea (buildGraph walls) c))).length
        = (tracedCycles walls).length := List.length_map _ _
  have hdet : detectRooms walls gs prev gen
      = roomsOfInterior (buildGraph walls) gs prev gen
          (dropIdx ((tracedCycles walls).map
            (fun c => (c, cycleArea (buildGraph walls) c)))
            (outerIdxOf (cycleAreas walls))) 0 0 := by
    rw [detectRooms, if_neg (by omega)]
    dsimp only
    rw [if_neg (by
      have := h2
      rw [tracedCycles] at this
      omega)]
    rw [show ((collectCycles (buildGraph walls)).map
        (fun c => (c, cycleArea (buildGraph walls) c))).map (·.2)
          = cycleAreas walls from hareas]
    rfl
  refine ⟨hlen ▸ ho1, fun j hj => ho2 j (hlen.symm ▸ hj), ho3, ?_, hdet, ?_⟩
  · have hlt : outerIdxOf (cycleAreas walls)
        < ((tracedCycles walls).map
          (fun c => (c, cycleArea (buildGraph walls) c))).length := by
      rw [hdlen, ← hlen]
      exact ho1
    have := dropIdx_length _ _ hlt
    rw [hdlen] at this
    exact this
  · rw [hdet, roomsOfInterior_length]

/-- C1 witness: the exclusion facts at the triangle input. -/
theorem detectRooms_outer_exclusion_witness :
    3 ≤ triWalls.length ∧ 2 ≤ (tracedCycles triWalls).length ∧
    outerIdxOf (cycleAreas triWalls) < (tracedCycles triWalls).length :=
  ⟨by decide, by decide,
    (detectRooms_outer_exclusion triWalls 10 [] idStream (by decide) (by decide)).1⟩

/-- One step of `roomsOfInterior` on a non-degenerate cycle: it emits a
room whose `wallIds` are the cycle's, with truthy id, name and ceiling
height (`generateId` ids assumed nonempty). -/
theorem roomsOfInterior_shape (g : Graph) (gs : ℚ) (prev : List Room)
    (gen : ℕ → String) (hgen : ∀ n, gen n ≠ "") (d : List Key × ℚ)
    (rest : List (List Key × ℚ)) (idx c : ℕ)
    (hp : ¬ d.2 / (gs * gs) < 1 / 100) :
    ∃ (rid rnm : String) (rch : ℚ) (c₂ : ℕ), rid ≠ "" ∧ rnm ≠ "" ∧ rch ≠ 0 ∧
      roomsOfInterior g gs prev gen (d :: rest) idx c
        = ⟨rid, rnm, cycleWallIds g d.1, rch⟩
            :: roomsOfInterior g gs prev gen rest (idx + 1) c₂ := by
  rw [roomsOfInterior, if_neg hp]
  dsimp only
  cases hfind : prev.find? (fun r => sortStable strLt r.wallIds
      = sortStable strLt (cycleWallIds g d.1)) with
  | none =>
    exact ⟨gen c, defaultName idx, defaultCeiling, c + 1, hgen c,
      defaultName_ne_empty idx, defaultCeiling_ne_zero, rfl⟩
  | some e =>
    refine ⟨(if e.id = "" then (gen c, c + 1) else (e.id, c)).1,
      if e.name = "" then defaultName idx else e.name,
      if e.ceilingHeight = 0 then defaultCeiling else e.ceilingHeight,
      (if e.id = "" then (gen c, c + 1) else (e.id, c)).2, ?_, ?_, ?_, rfl⟩
    · by_cases hid : e.id = "" <;> simp [hid, hgen c]
    · split_ifs with h
      exacts [defaultName_ne_empty idx, h]
    · split_ifs with h
      exacts [defaultCeiling_ne_zero, h]

/-- The reconciliation induction behind idempotence: rerunning
`roomsOfInterior` with the previous output (behind an already-matched
prefix `P` whose sorted id-lists match no remaining passing cycle)
reproduces that output exactly, provided the passing cycles' sorted
wall-id lists are pairwise distinct. -/
theorem roomsOfInterior_refind (g : Graph) (gs : ℚ) (prev : List Room)
    (gen gen' : ℕ → String) (hgen : ∀ n, gen n ≠ "") :
    ∀ (I : List (List Key × ℚ)) (P : List Room) (idx c idx' c' : ℕ),
      ((I.filter (passes gs)).map (sortedIdsOf g)).Nodup →
      (∀ r ∈ P, ∀ d ∈ I, passes gs d = true →
        sortStable strLt r.wallIds ≠ sortedIdsOf g d) →
      roomsOfInterior g gs (P ++ roomsOfInterior g gs prev gen I idx c) gen'
          I idx' c'
        = roomsOfInterior g gs prev gen I idx c := by
  intro I
  induction I with
  | nil => intro P idx c idx' c' _ _; rfl
  | cons d rest ih =>
    intro P idx c idx' c' hnd hP
    by_cases hp : d.2 / (gs * gs) < 1 / 100
    · have hpassf : passes gs d = false := by
        rw [passes, decide_eq_false_iff_not]
        exact not_not_intro hp
      have hseg : roomsOfInterior g gs prev gen (d :: rest) idx c
          = roomsOfInterior g gs prev gen rest (idx + 1) c := by
        rw [roomsOfInterior, if_pos hp]
      rw [hseg, roomsOfInterior, if_pos hp]
      refine ih P (idx + 1) c (idx' + 1) c' ?_ ?_
      · rwa [List.filter_cons, hpassf, if_neg (by simp)] at hnd
      · intro r hr d' hd' hpass'
        exact hP r hr d' (List.mem_cons_of_mem d hd') hpass'
    · have hpass : passes gs d = true := by
        rw [passes, decide_eq_true_eq]
        exact hp
      rw [List.filter_cons, hpass, if_pos rfl, List.map_cons, List.nodup_cons] at hnd
      obtain ⟨hnotin, hndrest⟩ := hnd
      obtain ⟨rid, rnm, rch, c₂, h1, h2, h3, hseg⟩ :=
        roomsOfInterior_shape g gs prev gen hgen d rest idx c hp
      rw [hseg, roomsOfInterior, if_neg hp]
      dsimp only
      have hfound : (P ++ (⟨rid, rnm, cycleWallIds g d.1, rch⟩ : Room)
            :: roomsOfInterior g gs prev gen rest (idx + 1) c₂).find?
            (fun r => sortStable strLt r.wallIds
              = sortStable strLt (cycleWallIds g d.1))
          = some ⟨rid, rnm, cycleWallIds g d.1, rch⟩ := by
        rw [find?_append_of_none _ P _ (fun r hr => by
          rw [decide_eq_false_iff_not]
          exact hP r hr d (List.mem_cons_self d rest) hpass)]
        rw [List.find?_cons]
        simp
      rw [hfound]
      dsimp only
      rw [if_neg h1, if_neg h2, if_neg h3]
      congr 1
      rw [show P ++ (⟨rid, rnm, cycleWallIds g d.1, rch⟩ : Room)
          :: roomsOfInterior g gs prev gen rest (idx + 1) c₂
        = (P ++ [⟨rid, rnm, cycleWallIds g d.1, rch⟩])
          ++ roomsOfInterior g gs prev gen rest (idx + 1) c₂ from by simp]
      refine ih (P ++ [⟨rid, rnm, cycleWallIds g d.1, rch⟩]) (idx + 1) c₂
        (idx' + 1) _ hndrest ?_
      intro r hr d' hd' hpass'
      rcases List.mem_append.mp hr with hr | hr
      · exact hP r hr d' (List.mem_cons_of_mem d hd') hpass'
      · rw [List.mem_singleton] at hr
        subst hr
        intro hcontra
        apply hnotin
        rw [show sortStable strLt
            (⟨rid, rnm, cycleWallIds g d.1, rch⟩ : Room).wallIds
          = sortedIdsOf g d from rfl] at hcontra
        rw [hcontra]
        exact List.mem_map.mpr ⟨d', List.mem_filter.mpr ⟨hd', hpass'⟩, rfl⟩

/-- C2 (amended): room recomputation is idempotent whenever the
non-degenerate interior cycles carry pairwise distinct wall-id sets (and
generated ids are nonempty): rerunning `detectRooms` on its own output
reproduces it exactly — ids, names, wallIds and ceiling heights.  With
duplicate interior wall-id sets the rerun rebinds later duplicates to
the first matching room, so the distinctness hypothesis is necessary. -/
theorem detectRooms_idempotent (walls : List (Wall ℚ)) (gs : ℚ)
    (prev : List Room) (gen gen' : ℕ → String) (hgen : ∀ n, gen n ≠ "")
    (hnd : (interiorSorteds walls gs).Nodup) :
    detectRooms walls gs (detectRooms walls gs prev gen) gen'
      = detectRooms walls gs prev gen := by
  by_cases hlen : walls.length < 3
  · simp only [detectRooms, if_pos hlen]
  · conv_lhs => rw [detectRooms]
    rw [if_neg hlen]
    dsimp only
    split_ifs with hcyc
    · rw [detectRooms, if_neg hlen]
      dsimp only
      rw [if_pos hcyc]
    · have hR1 : detectRooms walls gs prev gen
          = roomsOfInterior (buildGraph walls) gs prev gen
              (dropIdx ((collectCycles (buildGraph walls)).map
                (fun c => (c, cycleArea (buildGraph walls) c)))
                (outerIdxOf (((collectCycles (buildGraph walls)).map
                  (fun c => (c, cycleArea (buildGraph walls) c))).map (·.2))))
              0 0 := by
        rw [detectRooms, if_neg hlen]
        dsimp only
        rw [if_neg hcyc]
      rw [hR1]
      exact roomsOfInterior_refind (buildGraph walls) gs prev gen gen' hgen
        _ [] 0 0 0 0 hnd (by simp)

/-- C2 witness: idempotence at the single triangle (whose one interior
cycle trivially has pairwise distinct sorted wall-id lists). -/
theorem detectRooms_idempotent_witness :
    (∀ n, idStream n ≠ "") ∧ (interiorSorteds triWalls 10).Nodup ∧
    detectRooms triWalls 10 (detectRooms triWalls 10 [] idStream) idStream
      = detectRooms triWalls 10 [] idStream :=
  ⟨idStream_ne_empty, by decide,
    detectRooms_idempotent triWalls 10 [] idStream idStream idStream_ne_empty
      (by decide)⟩

end FP
